import Mathlib

/-!
Verification of the fan-control core of `amdgpud`.

The development shallowly embeds the Rust sources:
- `src/amdgpu/src/utils.rs` (`linear_map`, `hw_mons`),
- `src/amdfand/src/config.rs` (`MatrixPoint`, `Config`, `speed_for_temp`,
  `min_speed`, `max_speed`, `Default for Config`, `ConfigError`, `load_config`).

Rust `f64` values are modelled as rationals (`ℚ`): the curve arithmetic of the
source is plain field arithmetic and the properties under study are exact
algebraic statements.  Rust's `Iterator::rposition` is modelled by the
recursive `rposition` below (greatest index satisfying the predicate).
Filesystem reads/writes and TOML parsing performed by `load_config` are
external to the repository; they are modelled by explicit outcome parameters
(`ReadOutcome`, a `writeOk` flag), while every branch decision made by the
repository's own code is reproduced faithfully, including the `unwrap()` /
`panic!()` calls (modelled as the `panicked` result).
-/

namespace Amdgpud

/-- A point of the fan curve: `MatrixPoint { temp: f64, speed: f64 }`. -/
structure MatrixPoint where
  temp : ℚ
  speed : ℚ
deriving DecidableEq

/-- Log verbosity level (external `amdgpu::LogLevel`; only its presence in
`Config` matters here). -/
inductive LogLevel where
  | Off
  | Error
  | Warning
  | Info
  | Debug
  | Trace
deriving DecidableEq

/-- The `amdfand` configuration: deprecated card allow-list, log level, the
fan curve (`speed_matrix`) and an optional temperature input selector
(modelled by its numeric index). -/
structure Config where
  cards : Option (List String)
  log_level : LogLevel
  speed_matrix : List MatrixPoint
  temp_input : Option ℕ
deriving DecidableEq

/-- `linear_map` from `src/amdgpu/src/utils.rs`: linear mapping from the
xrange to the yrange, `m = (y2 - y1) / (x2 - x1); m * (x - x1) + y1`. -/
def linear_map (x x1 x2 y1 y2 : ℚ) : ℚ :=
  (y2 - y1) / (x2 - x1) * (x - x1) + y1

/-- Rust's `Iterator::rposition`: the greatest index whose element satisfies
`p`, or `none`. -/
def rposition {α : Type} (p : α → Bool) : List α → Option ℕ
  | [] => none
  | a :: as =>
    match rposition p as with
    | some i => some (i + 1)
    | none => if p a then some 0 else none

/-- Indexing into a curve, with a dummy default point (all accesses proved
in bounds where it matters). -/
def getP (l : List MatrixPoint) (i : ℕ) : MatrixPoint :=
  l.getD i ⟨0, 0⟩

/-- `Config::min_speed`: the first point's speed, `0.0` for an empty curve. -/
def Config.min_speed (c : Config) : ℚ :=
  (c.speed_matrix.head?.map MatrixPoint.speed).getD 0

/-- `Config::max_speed`: the last point's speed, `100.0` for an empty curve. -/
def Config.max_speed (c : Config) : ℚ :=
  (c.speed_matrix.getLast?.map MatrixPoint.speed).getD 100

/-- `Config::speed_for_temp`: rightmost point with `temp ≤` the reading, else
the min speed; last point clamps to the max speed; otherwise linear
interpolation to the successor point. -/
def Config.speed_for_temp (c : Config) (temp : ℚ) : ℚ :=
  match rposition (fun p => decide (p.temp ≤ temp)) c.speed_matrix with
  | none => c.min_speed
  | some idx =>
    if idx = c.speed_matrix.length - 1 then
      c.max_speed
    else
      linear_map temp (getP c.speed_matrix idx).temp
        (getP c.speed_matrix (idx + 1)).temp
        (getP c.speed_matrix idx).speed
        (getP c.speed_matrix (idx + 1)).speed

/-- The default configuration (`impl Default for Config`). -/
def Config.default : Config :=
  ⟨none, LogLevel.Error,
    [⟨4, 4⟩, ⟨30, 33⟩, ⟨45, 50⟩, ⟨60, 66⟩, ⟨65, 69⟩, ⟨70, 75⟩, ⟨75, 89⟩,
      ⟨80, 100⟩],
    some 1⟩

/-- `ConfigError` from `src/amdfand/src/config.rs`. -/
inductive ConfigError where
  | FanSpeedTooLow (value : ℚ) (index : ℕ)
  | FanSpeedTooHigh (value : ℚ) (index : ℕ)
  | UnsortedFanSpeed (current : ℚ) (index : ℕ) (last : ℚ)
  | UnsortedFanTemp (current : ℚ) (index : ℕ) (last : ℚ)
deriving DecidableEq

/-- The body of `load_config`'s validation loop, scanning the curve with the
running index and previous point, mirroring the source's check order:
speed below 0, speed above 100, unsorted speed, unsorted temperature. -/
def validateFrom (last : Option MatrixPoint) (index : ℕ) :
    List MatrixPoint → Except ConfigError Unit
  | [] => Except.ok ()
  | p :: rest =>
    if p.speed < 0 then
      Except.error (ConfigError.FanSpeedTooLow p.speed index)
    else if p.speed > 100 then
      Except.error (ConfigError.FanSpeedTooHigh p.speed index)
    else
      match last with
      | some lp =>
        if p.speed < lp.speed then
          Except.error (ConfigError.UnsortedFanSpeed p.speed index lp.speed)
        else if p.temp < lp.temp then
          Except.error (ConfigError.UnsortedFanTemp p.temp index lp.temp)
        else
          validateFrom (some p) (index + 1) rest
      | none => validateFrom (some p) (index + 1) rest

/-- The validation pass of `load_config` over a whole curve. -/
def validate (l : List MatrixPoint) : Except ConfigError Unit :=
  validateFrom none 0 l

/-- The error (if any) that the validation loop raises at one point, given
the previous point, in the source's check order. -/
def pointError (last : Option MatrixPoint) (p : MatrixPoint) (index : ℕ) :
    Option ConfigError :=
  if p.speed < 0 then some (ConfigError.FanSpeedTooLow p.speed index)
  else if p.speed > 100 then some (ConfigError.FanSpeedTooHigh p.speed index)
  else
    match last with
    | some lp =>
      if p.speed < lp.speed then
        some (ConfigError.UnsortedFanSpeed p.speed index lp.speed)
      else if p.temp < lp.temp then
        some (ConfigError.UnsortedFanTemp p.temp index lp.temp)
      else none
    | none => none

/-- The value of the loop's `last_point` variable after scanning `l`,
starting from `last`. -/
def lastSeen (last : Option MatrixPoint) : List MatrixPoint → Option MatrixPoint
  | [] => last
  | p :: rest => lastSeen (some p) rest

/-- Speed of a point within the documented `[0, 100]` range. -/
def rangeOk (p : MatrixPoint) : Prop :=
  0 ≤ p.speed ∧ p.speed ≤ 100

/-- Pointwise order used by the monotonicity rules: both speed and
temperature do not decrease. -/
def le_point (a b : MatrixPoint) : Prop :=
  a.speed ≤ b.speed ∧ a.temp ≤ b.temp

/-- The monotonicity invariant relative to an optional previous point. -/
def chainFrom : Option MatrixPoint → List MatrixPoint → Prop
  | _, [] => True
  | none, p :: rest => chainFrom (some p) rest
  | some lp, p :: rest => le_point lp p ∧ chainFrom (some p) rest

/-- The spec's well-formedness of a curve, in index form: every speed lies
in `[0, 100]`, and neither speed nor temperature decreases between
consecutive entries. -/
def wellFormed (l : List MatrixPoint) : Prop :=
  (∀ i, i < l.length → 0 ≤ (getP l i).speed ∧ (getP l i).speed ≤ 100) ∧
    (∀ i, i + 1 < l.length →
      (getP l i).speed ≤ (getP l (i + 1)).speed ∧
        (getP l i).temp ≤ (getP l (i + 1)).temp)

/-- Outcome of `std::fs::read_to_string` + `toml::from_str` in `load_config`,
modelled abstractly: the file was read and parsed (`found (some c)`), read
but malformed (`found none`), missing (`notFound`), or unreadable for
another reason (`otherError`). -/
inductive ReadOutcome where
  | found (parsed : Option Config)
  | notFound
  | otherError
deriving DecidableEq

/-- Errors `load_config` can return as values (`crate::Result`): a curve
validation error or the write error propagated by `?` on `std::fs::write`. -/
inductive LoadError where
  | configErr (e : ConfigError)
  | ioErr
deriving DecidableEq

/-- Result of `load_config`: a configuration, a returned error value, or
process termination (`unwrap()` on the parse result / the explicit
`panic!()`). -/
inductive LoadResult where
  | ok (c : Config)
  | err (e : LoadError)
  | panicked
deriving DecidableEq

/-- True exactly when `load_config` handed a value back to the caller
instead of terminating the process. -/
def LoadResult.isStructured : LoadResult → Bool
  | .ok _ => true
  | .err _ => true
  | .panicked => false

/-- The validation phase of `load_config` applied to an obtained `Config`. -/
def postValidate (c : Config) : LoadResult :=
  match validate c.speed_matrix with
  | Except.ok () => LoadResult.ok c
  | Except.error e => LoadResult.err (LoadError.configErr e)

/-- `load_config`, with filesystem and TOML effects made explicit: `read`
is the outcome of reading and parsing the file and `writeOk` tells whether
the bootstrap write succeeds.  Returns the result together with the
configuration written to disk, if any. -/
def loadConfig (read : ReadOutcome) (writeOk : Bool) :
    LoadResult × Option Config :=
  match read with
  | ReadOutcome.found (some c) => (postValidate c, none)
  | ReadOutcome.found none => (LoadResult.panicked, none)
  | ReadOutcome.notFound =>
    if writeOk then (postValidate Config.default, some Config.default)
    else (LoadResult.err LoadError.ioErr, none)
  | ReadOutcome.otherError => (LoadResult.panicked, none)

/-- An opened hardware monitor handle, reduced to the two derived facts the
filter consults: vendor is AMD, self-reported interface name is the AMD
one. -/
structure HwMon where
  is_amd : Bool
  name_is_amd : Bool
deriving DecidableEq

/-- One entry of the log produced while `hw_mons` runs. -/
inductive LogEntry where
  | opening (c : ℕ)
  | vendorCheck (b : Bool)
  | nameCheck (b : Bool)
deriving DecidableEq

/-- `hw_mons` from `src/amdgpu/src/utils.rs`, with the card list and the
outcome of `open_hw_mon` supplied as parameters and the `log::info!` calls
made explicit.  Mirrors the lazy iterator chain: per card, log the open
attempt; a failed open yields nothing; the first filter logs and tests the
vendor only when `fil` is true (`!filter || { .. }` short-circuits), and
the second filter runs only on survivors of the first. -/
def hw_monsLog (cards : List ℕ) (openF : ℕ → Option HwMon) (fil : Bool) :
    List HwMon × List LogEntry :=
  match cards with
  | [] => ([], [])
  | c :: rest =>
    let tail := hw_monsLog rest openF fil
    match openF c with
    | none => (tail.1, LogEntry.opening c :: tail.2)
    | some h =>
      if fil then
        if h.is_amd then
          if h.name_is_amd then
            (h :: tail.1,
              LogEntry.opening c :: LogEntry.vendorCheck true ::
                LogEntry.nameCheck true :: tail.2)
          else
            (tail.1,
              LogEntry.opening c :: LogEntry.vendorCheck true ::
                LogEntry.nameCheck false :: tail.2)
        else
          (tail.1, LogEntry.opening c :: LogEntry.vendorCheck false :: tail.2)
      else (h :: tail.1, LogEntry.opening c :: tail.2)

/-- The log contributed by a single card, used to characterise the whole
log of `hw_monsLog`. -/
def deviceLog (openF : ℕ → Option HwMon) (fil : Bool) (c : ℕ) :
    List LogEntry :=
  match openF c with
  | none => [LogEntry.opening c]
  | some h =>
    if fil then
      if h.is_amd then
        [LogEntry.opening c, LogEntry.vendorCheck true,
          LogEntry.nameCheck h.name_is_amd]
      else [LogEntry.opening c, LogEntry.vendorCheck false]
    else [LogEntry.opening c]

/-- A valid curve whose first temperature is duplicated by its second
point. -/
def dupFirstCurve : Config :=
  ⟨none, LogLevel.Error, [⟨50, 10⟩, ⟨50, 20⟩, ⟨60, 30⟩], none⟩

/-- A valid curve that is a three-point plateau at one temperature. -/
def plateauCurve : Config :=
  ⟨none, LogLevel.Error, [⟨50, 10⟩, ⟨50, 20⟩, ⟨50, 30⟩], none⟩

/-- A configuration with an empty curve. -/
def emptyCurve : Config :=
  ⟨none, LogLevel.Error, [], none⟩

end Amdgpud

namespace Amdgpud

example : Config.default.speed_for_temp 1 = 4 := by rfl
example : Config.default.speed_for_temp 4 = 4 := by
  norm_num [Config.speed_for_temp, Config.default, rposition, getP, linear_map]
example : Config.default.speed_for_temp 46 = 766 / 15 := by
  norm_num [Config.speed_for_temp, Config.default, rposition, getP, linear_map]
example : Config.default.speed_for_temp 60 = 66 := by
  norm_num [Config.speed_for_temp, Config.default, rposition, getP, linear_map]
example : Config.default.speed_for_temp 80 = 100 := by rfl
example : Config.default.speed_for_temp 160 = 100 := by rfl
example : validate Config.default.speed_matrix = Except.ok () := by rfl
example :
    validate [⟨4, 4⟩, ⟨30, 2⟩] =
      Except.error (ConfigError.UnsortedFanSpeed 2 1 4) := by rfl

/-! ### Properties of `rposition` -/

/-- A found index is in bounds and its element satisfies the predicate. -/
theorem rposition_some {α : Type} (p : α → Bool) (d : α) :
    ∀ (l : List α) (i : ℕ), rposition p l = some i →
      i < l.length ∧ p (l.getD i d) = true := by
  intro l
  induction l with
  | nil => intro i h; simp [rposition] at h
  | cons a as ih =>
    intro i h
    simp only [rposition] at h
    cases hr : rposition p as with
    | some k =>
      rw [hr] at h
      simp only [Option.some.injEq] at h
      subst h
      obtain ⟨hk, hp⟩ := ih k hr
      exact ⟨by simpa using Nat.succ_lt_succ hk, by simpa using hp⟩
    | none =>
      rw [hr] at h
      by_cases hp : p a
      · simp only [hp, if_true, Option.some.injEq] at h
        subst h
        exact ⟨Nat.succ_pos _, by simpa using hp⟩
      · simp [hp] at h

/-- When `rposition` returns `none`, no element satisfies the predicate.
Stated first as the auxiliary used above. -/
theorem rposition_none_aux {α : Type} (p : α → Bool) (d : α) :
    ∀ (l : List α), rposition p l = none →
      ∀ j, j < l.length → p (l.getD j d) = false := by
  intro l
  induction l with
  | nil => intro _ j hj; simp at hj
  | cons a as ih =>
    intro h j hj
    simp only [rposition] at h
    cases hr : rposition p as with
    | some k => rw [hr] at h; simp at h
    | none =>
      rw [hr] at h
      by_cases hp : p a
      · simp [hp] at h
      · cases j with
        | zero => simpa using eq_false_of_ne_true hp
        | succ j' => simpa using ih hr j' (by simpa using hj)

/-- `rposition` returns the greatest satisfying index: everything to its
right fails the predicate. -/
theorem rposition_max {α : Type} (p : α → Bool) (d : α) :
    ∀ (l : List α) (i : ℕ), rposition p l = some i →
      ∀ j, i < j → j < l.length → p (l.getD j d) = false := by
  intro l
  induction l with
  | nil => intro i h; simp [rposition] at h
  | cons a as ih =>
    intro i h j hij hj
    simp only [rposition] at h
    cases hr : rposition p as with
    | some k =>
      rw [hr] at h
      simp only [Option.some.injEq] at h
      subst h
      cases j with
      | zero => omega
      | succ j' =>
        simpa using ih k hr j' (by omega) (by simpa using hj)
    | none =>
      rw [hr] at h
      by_cases hp : p a
      · simp only [hp, if_true, Option.some.injEq] at h
        subst h
        cases j with
        | zero => omega
        | succ j' =>
          have := rposition_none_aux p d as hr j' (by simpa using hj)
          simpa using this
      · simp [hp] at h

/-- Any satisfying index bounds the result of `rposition` from below. -/
theorem rposition_ge {α : Type} (p : α → Bool) (d : α) (l : List α) (j : ℕ)
    (hj : j < l.length) (hp : p (l.getD j d) = true) :
    ∃ i, rposition p l = some i ∧ j ≤ i := by
  cases hr : rposition p l with
  | none =>
    have hf := rposition_none_aux p d l hr j hj
    rw [hp] at hf
    exact absurd hf (by simp)
  | some i =>
    refine ⟨i, rfl, ?_⟩
    by_contra hij
    have hf := rposition_max p d l i hr j (by omega) hj
    rw [hp] at hf
    exact absurd hf (by simp)

/-! ### Properties of validation -/

/-- In-bounds curve indexing agrees with `List.get`. -/
theorem getP_eq_get (l : List MatrixPoint) (i : ℕ) (h : i < l.length) :
    getP l i = l.get ⟨i, h⟩ := by
  simp [getP, List.getD_eq_getElem?_getD, List.getElem?_eq_getElem h,
    List.get_eq_getElem]

/-- Curve indexing steps through `cons`. -/
theorem getP_cons_succ (p : MatrixPoint) (l : List MatrixPoint) (i : ℕ) :
    getP (p :: l) (i + 1) = getP l i := by
  simp [getP]

/-- Curve indexing at the head. -/
theorem getP_cons_zero (p : MatrixPoint) (l : List MatrixPoint) :
    getP (p :: l) 0 = p := rfl

/-- One step of the validation loop, expressed through `pointError`. -/
theorem validateFrom_cons (last : Option MatrixPoint) (idx : ℕ)
    (p : MatrixPoint) (rest : List MatrixPoint) :
    validateFrom last idx (p :: rest) =
      match pointError last p idx with
      | some e => Except.error e
      | none => validateFrom (some p) (idx + 1) rest := by
  by_cases h0 : p.speed < 0
  · simp [validateFrom, pointError, h0]
  by_cases h100 : p.speed > 100
  · simp [validateFrom, pointError, h0, h100]
  cases last with
  | none => simp [validateFrom, pointError, h0, h100]
  | some lp =>
    by_cases hs : p.speed < lp.speed
    · simp [validateFrom, pointError, h0, h100, hs]
    by_cases ht : p.temp < lp.temp
    · simp [validateFrom, pointError, h0, h100, hs, ht]
    · simp [validateFrom, pointError, h0, h100, hs, ht]

/-- `pointError` raises nothing exactly when the point is in range and in
order with respect to the previous one. -/
theorem pointError_eq_none_iff (last : Option MatrixPoint) (p : MatrixPoint)
    (idx : ℕ) :
    pointError last p idx = none ↔
      rangeOk p ∧ ∀ lp, last = some lp → le_point lp p := by
  cases last with
  | none =>
    simp only [pointError, rangeOk]
    constructor
    · intro h
      by_cases h0 : p.speed < 0
      · simp [h0] at h
      by_cases h100 : p.speed > 100
      · simp [h0, h100] at h
      · exact ⟨⟨le_of_not_lt h0, le_of_not_lt h100⟩, by simp⟩
    · intro ⟨⟨h0, h100⟩, _⟩
      simp [not_lt_of_le h0, not_lt_of_le h100]
  | some lp =>
    simp only [pointError, rangeOk, le_point]
    constructor
    · intro h
      by_cases h0 : p.speed < 0
      · simp [h0] at h
      by_cases h100 : p.speed > 100
      · simp [h0, h100] at h
      by_cases hs : p.speed < lp.speed
      · simp [h0, h100, hs] at h
      by_cases ht : p.temp < lp.temp
      · simp [h0, h100, hs, ht] at h
      · exact ⟨⟨le_of_not_lt h0, le_of_not_lt h100⟩,
          fun q hq => by cases hq; exact ⟨le_of_not_lt hs, le_of_not_lt ht⟩⟩
    · intro ⟨⟨h0, h100⟩, hle⟩
      obtain ⟨hs, ht⟩ := hle lp rfl
      simp [not_lt_of_le h0, not_lt_of_le h100, not_lt_of_le hs,
        not_lt_of_le ht]

/-- The validation loop accepts exactly the curves that are in range and
chained from the running previous point. -/
theorem validateFrom_ok_iff (l : List MatrixPoint) :
    ∀ (last : Option MatrixPoint) (idx : ℕ),
      validateFrom last idx l = Except.ok () ↔
        (∀ p ∈ l, rangeOk p) ∧ chainFrom last l := by
  induction l with
  | nil => intro last idx; simp [validateFrom, chainFrom]
  | cons p rest ih =>
    intro last idx
    rw [validateFrom_cons]
    cases hpe : pointError last p idx with
    | some e =>
      simp only [reduceCtorEq, false_iff]
      intro ⟨hrange, hchain⟩
      have hnone : pointError last p idx = none := by
        rw [pointError_eq_none_iff]
        refine ⟨hrange p (by simp), ?_⟩
        intro lp hlp
        subst hlp
        simp only [chainFrom] at hchain
        exact hchain.1
      rw [hnone] at hpe
      cases hpe
    | none =>
      rw [ih (some p) (idx + 1)]
      obtain ⟨hrp, hlast⟩ := (pointError_eq_none_iff last p idx).mp hpe
      cases last with
      | none =>
        simp only [chainFrom, List.mem_cons]
        constructor
        · intro ⟨hr, hc⟩
          exact ⟨fun q hq => hq.elim (fun h => h ▸ hrp) (hr q), hc⟩
        · intro ⟨hr, hc⟩
          exact ⟨fun q hq => hr q (Or.inr hq), hc⟩
      | some lp =>
        simp only [chainFrom, List.mem_cons]
        constructor
        · intro ⟨hr, hc⟩
          exact ⟨fun q hq => hq.elim (fun h => h ▸ hrp) (hr q),
            hlast lp rfl, hc⟩
        · intro ⟨hr, _, hc⟩
          exact ⟨fun q hq => hr q (Or.inr hq), hc⟩

/-- The chain invariant from no previous point, in index form. -/
theorem chainFrom_none_iff (l : List MatrixPoint) :
    chainFrom none l ↔
      ∀ i, i + 1 < l.length → le_point (getP l i) (getP l (i + 1)) := by
  induction l with
  | nil => simp [chainFrom]
  | cons p rest ih =>
    cases rest with
    | nil =>
      simp only [chainFrom, List.length_cons, List.length_nil]
      constructor
      · intro _ i hi; omega
      · intro _; trivial
    | cons q rest' =>
      have hstep : chainFrom none (p :: q :: rest') =
          (le_point p q ∧ chainFrom none (q :: rest')) := rfl
      rw [hstep, ih]
      constructor
      · intro ⟨hpq, hrest⟩ i hi
        cases i with
        | zero => simpa [getP_cons_zero, getP_cons_succ] using hpq
        | succ i' =>
          rw [getP_cons_succ, getP_cons_succ]
          exact hrest i' (by simpa using hi)
      · intro hall
        refine ⟨by simpa [getP_cons_zero, getP_cons_succ] using hall 0 (by simp), ?_⟩
        intro i hi
        have := hall (i + 1) (by simpa using hi)
        rwa [getP_cons_succ, getP_cons_succ] at this

/-- Range membership in index form. -/
theorem forall_mem_iff_getP (l : List MatrixPoint) :
    (∀ p ∈ l, rangeOk p) ↔ ∀ i, i < l.length → rangeOk (getP l i) := by
  constructor
  · intro h i hi
    rw [getP_eq_get l i hi]
    exact h _ (l.get_mem i hi)
  · intro h p hp
    obtain ⟨⟨i, hi⟩, rfl⟩ := List.mem_iff_get.mp hp
    rw [← getP_eq_get l i hi]
    exact h i hi

/-- `validate` accepts exactly the well-formed curves. -/
theorem validate_ok_iff (l : List MatrixPoint) :
    validate l = Except.ok () ↔ wellFormed l := by
  rw [validate, validateFrom_ok_iff, chainFrom_none_iff, forall_mem_iff_getP]
  unfold wellFormed rangeOk le_point
  tauto

/-- The loop's running previous point is the last element scanned. -/
theorem lastSeen_eq_getLast? (l : List MatrixPoint) :
    ∀ last : Option MatrixPoint,
      lastSeen last l =
        match l.getLast? with
        | some q => some q
        | none => last := by
  induction l with
  | nil => intro last; rfl
  | cons p rest ih =>
    intro last
    cases rest with
    | nil => simp [lastSeen, ih]
    | cons q rest' =>
      show lastSeen (some p) (q :: rest') = _
      rw [ih (some p), List.getLast?_cons_cons]
      cases hg : (q :: rest').getLast? with
      | some r => rfl
      | none => exact absurd hg (by simp)

/-- Scanning a clean prefix passes through unchanged, with the running
index advanced and the previous point updated. -/
theorem validateFrom_append (pre : List MatrixPoint) :
    ∀ (last : Option MatrixPoint) (idx : ℕ) (rest : List MatrixPoint),
      validateFrom last idx pre = Except.ok () →
      validateFrom last idx (pre ++ rest) =
        validateFrom (lastSeen last pre) (idx + pre.length) rest := by
  induction pre with
  | nil => intro last idx rest _; simp [lastSeen]
  | cons p pre' ih =>
    intro last idx rest hok
    rw [validateFrom_cons] at hok
    rw [List.cons_append, validateFrom_cons]
    cases hpe : pointError last p idx with
    | some e => rw [hpe] at hok; cases hok
    | none =>
      rw [hpe] at hok
      rw [ih (some p) (idx + 1) rest hok]
      show validateFrom (lastSeen (some p) pre') (idx + 1 + pre'.length) rest =
        validateFrom (lastSeen (some p) pre') (idx + (p :: pre').length) rest
      congr 1
      simp
      omega

/-- Validation fails on the first offending point with the matching error,
regardless of everything after it. -/
theorem validate_error_at (pre : List MatrixPoint) (p : MatrixPoint)
    (post : List MatrixPoint) (e : ConfigError)
    (hok : validate pre = Except.ok ())
    (he : pointError (lastSeen none pre) p pre.length = some e) :
    validate (pre ++ p :: post) = Except.error e := by
  unfold validate at hok ⊢
  rw [validateFrom_append pre none 0 (p :: post) hok, validateFrom_cons]
  simp only [Nat.zero_add]
  rw [he]

/-! ### Properties of the evaluator -/

/-- Adjacent bounds propagate to any pair of indices. -/
theorem getP_mono (f : MatrixPoint → ℚ) (l : List MatrixPoint)
    (hadj : ∀ i, i + 1 < l.length → f (getP l i) ≤ f (getP l (i + 1))) :
    ∀ i j, i ≤ j → j < l.length → f (getP l i) ≤ f (getP l j) := by
  intro i j
  induction j with
  | zero =>
    intro hij _
    have : i = 0 := Nat.le_zero.mp hij
    subst this
    exact le_refl _
  | succ j' ih =>
    intro hij hj
    rcases Nat.lt_or_ge i (j' + 1) with hlt | hge
    · exact le_trans (ih (by omega) (by omega)) (hadj j' hj)
    · have : i = j' + 1 := by omega
      subst this
      exact le_refl _

/-- `speed_for_temp` when no point's temperature is below the reading. -/
theorem speed_for_temp_of_none (c : Config) (t : ℚ)
    (h : rposition (fun p => decide (p.temp ≤ t)) c.speed_matrix = none) :
    c.speed_for_temp t = c.min_speed := by
  unfold Config.speed_for_temp
  rw [h]

/-- `speed_for_temp` when the bracketing index is the last point. -/
theorem speed_for_temp_of_last (c : Config) (t : ℚ) (idx : ℕ)
    (h : rposition (fun p => decide (p.temp ≤ t)) c.speed_matrix = some idx)
    (hl : idx = c.speed_matrix.length - 1) :
    c.speed_for_temp t = c.max_speed := by
  unfold Config.speed_for_temp
  rw [h]
  simp [hl]

/-- `speed_for_temp` on an interior bracketing index interpolates. -/
theorem speed_for_temp_of_mid (c : Config) (t : ℚ) (idx : ℕ)
    (h : rposition (fun p => decide (p.temp ≤ t)) c.speed_matrix = some idx)
    (hl : idx ≠ c.speed_matrix.length - 1) :
    c.speed_for_temp t =
      linear_map t (getP c.speed_matrix idx).temp
        (getP c.speed_matrix (idx + 1)).temp
        (getP c.speed_matrix idx).speed
        (getP c.speed_matrix (idx + 1)).speed := by
  unfold Config.speed_for_temp
  rw [h]
  simp [hl]

/-- The min speed of a non-empty curve is the first point's speed. -/
theorem min_speed_eq_getP (c : Config) (h : c.speed_matrix ≠ []) :
    c.min_speed = (getP c.speed_matrix 0).speed := by
  cases hm : c.speed_matrix with
  | nil => exact absurd hm h
  | cons p rest => simp [Config.min_speed, hm, getP]

/-- The last element of a non-empty list, through `getP`. -/
theorem getLast?_eq_getP (l : List MatrixPoint) (h : l ≠ []) :
    l.getLast? = some (getP l (l.length - 1)) := by
  induction l with
  | nil => exact absurd rfl h
  | cons p rest ih =>
    cases rest with
    | nil => rfl
    | cons q rest' =>
      rw [List.getLast?_cons_cons, ih (by simp)]
      have hlen : (p :: q :: rest').length - 1 =
          ((q :: rest').length - 1) + 1 := by
        simp
      rw [hlen, getP_cons_succ]

/-- The max speed of a non-empty curve is the last point's speed. -/
theorem max_speed_eq_getP (c : Config) (h : c.speed_matrix ≠ []) :
    c.max_speed =
      (getP c.speed_matrix (c.speed_matrix.length - 1)).speed := by
  unfold Config.max_speed
  rw [getLast?_eq_getP c.speed_matrix h]
  rfl

/-- The bracketing index is determined: a point at or below the reading all
of whose successors are above it. -/
theorem rposition_temp_eq (l : List MatrixPoint) (t : ℚ) (i : ℕ)
    (hi : i < l.length)
    (hti : (getP l i).temp ≤ t)
    (htn : ∀ j, i < j → j < l.length → t < (getP l j).temp) :
    rposition (fun p => decide (p.temp ≤ t)) l = some i := by
  obtain ⟨k, hk, hik⟩ :=
    rposition_ge (fun p => decide (p.temp ≤ t)) ⟨0, 0⟩ l i hi
      (decide_eq_true hti)
  rcases Nat.eq_or_lt_of_le hik with heq | hlt
  · rw [hk, heq]
  · obtain ⟨hklen, hkp⟩ :=
      rposition_some (fun p => decide (p.temp ≤ t)) ⟨0, 0⟩ l k hk
    have htk : (getP l k).temp ≤ t := of_decide_eq_true hkp
    exact absurd htk (not_le_of_lt (htn k hlt hklen))

/-- Linear interpolation between an increasing x-pair and an ordered y-pair
stays within the y-range. -/
theorem linear_map_bounds (x x1 x2 y1 y2 : ℚ) (hx : x1 < x2) (hy : y1 ≤ y2)
    (h1 : x1 ≤ x) (h2 : x ≤ x2) :
    y1 ≤ linear_map x x1 x2 y1 y2 ∧ linear_map x x1 x2 y1 y2 ≤ y2 := by
  unfold linear_map
  have hd : (0 : ℚ) < x2 - x1 := by linarith
  have hm : (0 : ℚ) ≤ (y2 - y1) / (x2 - x1) :=
    div_nonneg (by linarith) (le_of_lt hd)
  constructor
  · nlinarith [mul_nonneg hm (by linarith : (0 : ℚ) ≤ x - x1)]
  · have hstep : (y2 - y1) / (x2 - x1) * (x - x1) ≤
        (y2 - y1) / (x2 - x1) * (x2 - x1) :=
      mul_le_mul_of_nonneg_left (by linarith) hm
    rw [div_mul_cancel₀ _ (ne_of_gt hd)] at hstep
    linarith

/-- Linear interpolation with an increasing x-pair and ordered y-pair is
monotone in its argument. -/
theorem linear_map_mono (x x' x1 x2 y1 y2 : ℚ) (hx : x1 < x2) (hy : y1 ≤ y2)
    (hxx : x ≤ x') :
    linear_map x x1 x2 y1 y2 ≤ linear_map x' x1 x2 y1 y2 := by
  unfold linear_map
  have hm : (0 : ℚ) ≤ (y2 - y1) / (x2 - x1) :=
    div_nonneg (by linarith) (by linarith)
  nlinarith [mul_le_mul_of_nonneg_left (by linarith : x - x1 ≤ x' - x1) hm]

/-- The bracketing point's temperature is at or below the reading, and its
successor (when it exists) is strictly above it. -/
theorem bracket_facts (l : List MatrixPoint) (t : ℚ) (idx : ℕ)
    (h : rposition (fun p => decide (p.temp ≤ t)) l = some idx) :
    idx < l.length ∧ (getP l idx).temp ≤ t ∧
      (idx + 1 < l.length → t < (getP l (idx + 1)).temp) := by
  obtain ⟨hlen, hp⟩ := rposition_some (fun p => decide (p.temp ≤ t)) ⟨0, 0⟩ l idx h
  refine ⟨hlen, of_decide_eq_true hp, ?_⟩
  intro hsucc
  have hf := rposition_max (fun p => decide (p.temp ≤ t)) ⟨0, 0⟩ l idx h
    (idx + 1) (by omega) hsucc
  have : ¬ (getP l (idx + 1)).temp ≤ t := of_decide_eq_false hf
  exact lt_of_not_le this

/-- With a valid curve of strictly increasing temperatures, the evaluated
speed is at least its bracketing point's speed. -/
theorem speed_for_temp_lb (c : Config) (t : ℚ) (idx : ℕ)
    (hwf : wellFormed c.speed_matrix)
    (hstrict : ∀ i, i + 1 < c.speed_matrix.length →
      (getP c.speed_matrix i).temp < (getP c.speed_matrix (i + 1)).temp)
    (h : rposition (fun p => decide (p.temp ≤ t)) c.speed_matrix = some idx) :
    (getP c.speed_matrix idx).speed ≤ c.speed_for_temp t := by
  obtain ⟨hlen, ht1, ht2⟩ := bracket_facts c.speed_matrix t idx h
  by_cases hl : idx = c.speed_matrix.length - 1
  · rw [speed_for_temp_of_last c t idx h hl,
      max_speed_eq_getP c (by intro hnil; rw [hnil] at hlen; simp at hlen), hl]
  · have hsucc : idx + 1 < c.speed_matrix.length := by omega
    rw [speed_for_temp_of_mid c t idx h hl]
    exact (linear_map_bounds t _ _ _ _ (hstrict idx hsucc)
      (hwf.2 idx hsucc).1 ht1 (le_of_lt (ht2 hsucc))).1

/-- With a valid curve of strictly increasing temperatures, the evaluated
speed on an interior bracket is at most the successor point's speed. -/
theorem speed_for_temp_ub (c : Config) (t : ℚ) (idx : ℕ)
    (hwf : wellFormed c.speed_matrix)
    (hstrict : ∀ i, i + 1 < c.speed_matrix.length →
      (getP c.speed_matrix i).temp < (getP c.speed_matrix (i + 1)).temp)
    (h : rposition (fun p => decide (p.temp ≤ t)) c.speed_matrix = some idx)
    (hsucc : idx + 1 < c.speed_matrix.length) :
    c.speed_for_temp t ≤ (getP c.speed_matrix (idx + 1)).speed := by
  obtain ⟨hlen, ht1, ht2⟩ := bracket_facts c.speed_matrix t idx h
  have hl : idx ≠ c.speed_matrix.length - 1 := by omega
  rw [speed_for_temp_of_mid c t idx h hl]
  exact (linear_map_bounds t _ _ _ _ (hstrict idx hsucc)
    (hwf.2 idx hsucc).1 ht1 (le_of_lt (ht2 hsucc))).2

/-! ### Properties of `hw_mons` and `load_config` -/

/-- The devices returned by `hw_mons` are the successfully opened ones,
filtered (when requested) by the conjunction of the two predicates. -/
theorem hw_monsLog_fst (openF : ℕ → Option HwMon) (fil : Bool) :
    ∀ cards : List ℕ,
      (hw_monsLog cards openF fil).1 =
        (cards.filterMap openF).filter
          (fun h => !fil || (h.is_amd && h.name_is_amd)) := by
  intro cards
  induction cards with
  | nil => rfl
  | cons c rest ih =>
    cases ho : openF c with
    | none => simp [hw_monsLog, ho, List.filterMap_cons, ih]
    | some h =>
      cases hf : fil with
      | false =>
        rw [hf] at ih
        simp [hw_monsLog, ho, List.filterMap_cons, List.filter_cons, ih]
      | true =>
        rw [hf] at ih
        cases ha : h.is_amd with
        | false =>
          simp [hw_monsLog, ho, ha, List.filterMap_cons, List.filter_cons, ih]
        | true =>
          cases hn : h.name_is_amd with
          | false =>
            simp [hw_monsLog, ho, ha, hn, List.filterMap_cons,
              List.filter_cons, ih]
          | true =>
            simp [hw_monsLog, ho, ha, hn, List.filterMap_cons,
              List.filter_cons, ih]

/-- The log of `hw_mons` is the concatenation of each card's own log. -/
theorem hw_monsLog_snd (openF : ℕ → Option HwMon) (fil : Bool) :
    ∀ cards : List ℕ,
      (hw_monsLog cards openF fil).2 =
        (cards.map (deviceLog openF fil)).flatten := by
  intro cards
  induction cards with
  | nil => rfl
  | cons c rest ih =>
    cases ho : openF c with
    | none => simp [hw_monsLog, deviceLog, ho, ih]
    | some h =>
      cases hf : fil with
      | false =>
        rw [hf] at ih
        simp [hw_monsLog, deviceLog, ho, ih]
      | true =>
        rw [hf] at ih
        cases ha : h.is_amd with
        | false => simp [hw_monsLog, deviceLog, ho, ha, ih]
        | true =>
          cases hn : h.name_is_amd with
          | false => simp [hw_monsLog, deviceLog, ho, ha, hn, ih]
          | true => simp [hw_monsLog, deviceLog, ho, ha, hn, ih]

/-- The validation phase returns a value; it never terminates the
process. -/
theorem postValidate_ne_panicked (c : Config) :
    postValidate c ≠ LoadResult.panicked := by
  unfold postValidate
  cases hv : validate c.speed_matrix with
  | ok u => cases u; simp
  | error e => simp

/-! ### The claims -/

/-- C1: on a validated curve, for adjacent points `(x1, y1)`, `(x2, y2)`
with `x1 < x2` and every `t` with `x1 ≤ t < x2`, `speed_for_temp` returns
exactly `y1 + (y2 - y1) / (x2 - x1) * (t - x1)` — affine in `t` on the
segment; it agrees with `y1` at `t = x1`, and the interpolation formula
takes the value `y2` at `t = x2`. -/
theorem speed_for_temp_interpolates (c : Config) (i : ℕ) (t : ℚ)
    (hv : validate c.speed_matrix = Except.ok ())
    (hi : i + 1 < c.speed_matrix.length)
    (hlt : (getP c.speed_matrix i).temp < (getP c.speed_matrix (i + 1)).temp)
    (ht1 : (getP c.speed_matrix i).temp ≤ t)
    (ht2 : t < (getP c.speed_matrix (i + 1)).temp) :
    c.speed_for_temp t =
      (getP c.speed_matrix i).speed +
        ((getP c.speed_matrix (i + 1)).speed - (getP c.speed_matrix i).speed) /
          ((getP c.speed_matrix (i + 1)).temp - (getP c.speed_matrix i).temp) *
          (t - (getP c.speed_matrix i).temp) ∧
      c.speed_for_temp (getP c.speed_matrix i).temp =
        (getP c.speed_matrix i).speed ∧
      linear_map (getP c.speed_matrix (i + 1)).temp
        (getP c.speed_matrix i).temp (getP c.speed_matrix (i + 1)).temp
        (getP c.speed_matrix i).speed (getP c.speed_matrix (i + 1)).speed =
        (getP c.speed_matrix (i + 1)).speed := by
  have hwf := (validate_ok_iff c.speed_matrix).mp hv
  have htadj : ∀ k, k + 1 < c.speed_matrix.length →
      (getP c.speed_matrix k).temp ≤ (getP c.speed_matrix (k + 1)).temp :=
    fun k hk => (hwf.2 k hk).2
  have htmono := getP_mono (fun p => p.temp) c.speed_matrix htadj
  have hne : i ≠ c.speed_matrix.length - 1 := by omega
  have hrt : rposition (fun p => decide (p.temp ≤ t)) c.speed_matrix =
      some i :=
    rposition_temp_eq c.speed_matrix t i (by omega) ht1
      (fun j hij hj => lt_of_lt_of_le ht2 (htmono (i + 1) j hij hj))
  refine ⟨?_, ?_, ?_⟩
  · rw [speed_for_temp_of_mid c t i hrt hne]
    unfold linear_map
    ring
  · have hrx : rposition
        (fun p => decide (p.temp ≤ (getP c.speed_matrix i).temp))
        c.speed_matrix = some i :=
      rposition_temp_eq c.speed_matrix _ i (by omega) (le_refl _)
        (fun j hij hj => lt_of_lt_of_le hlt (htmono (i + 1) j hij hj))
    rw [speed_for_temp_of_mid c _ i hrx hne]
    unfold linear_map
    ring
  · have hd : (getP c.speed_matrix (i + 1)).temp -
        (getP c.speed_matrix i).temp ≠ 0 :=
      sub_ne_zero.mpr (ne_of_gt hlt)
    unfold linear_map
    rw [div_mul_cancel₀ _ hd]
    ring

/-- Witness for C1: the default curve's segment `(45,50)–(60,66)` at
`t = 46` gives `50 + 16/15 = 766/15`. -/
theorem speed_for_temp_interpolates_witness :
    Config.default.speed_for_temp 46 = 766 / 15 := by
  have h := (speed_for_temp_interpolates Config.default 2 46 rfl
    (by norm_num [Config.default])
    (by norm_num [Config.default, getP])
    (by norm_num [Config.default, getP])
    (by norm_num [Config.default, getP])).1
  rw [h]
  norm_num [Config.default, getP]

/-- C2 as stated is refuted by `dupFirstCurve`: it passes validation, the
temperature `50` is `≤` the first point's temperature `50`, yet
`speed_for_temp` returns `20`, not the first point's speed `10`. -/
theorem speed_at_or_below_first_refuted :
    validate dupFirstCurve.speed_matrix = Except.ok () ∧
    (50 : ℚ) ≤ (getP dupFirstCurve.speed_matrix 0).temp ∧
    (getP dupFirstCurve.speed_matrix 0).speed = 10 ∧
    dupFirstCurve.speed_for_temp 50 = 20 ∧ (20 : ℚ) ≠ 10 := by
  refine ⟨rfl, ?_, rfl, ?_, by norm_num⟩
  · norm_num [dupFirstCurve, getP]
  · norm_num [Config.speed_for_temp, dupFirstCurve, rposition, getP,
      linear_map]

/-- C2 amended: on a validated non-empty curve, every temperature strictly
below the first point's temperature evaluates to the first point's speed;
a temperature `≤` the first point's temperature does so provided no later
point shares that temperature; and every temperature at or above the last
point's temperature evaluates to the last point's speed. -/
theorem speed_for_temp_clamps (c : Config)
    (hv : validate c.speed_matrix = Except.ok ())
    (hne : c.speed_matrix ≠ []) :
    (∀ t, t < (getP c.speed_matrix 0).temp →
      c.speed_for_temp t = (getP c.speed_matrix 0).speed) ∧
    (∀ t, t ≤ (getP c.speed_matrix 0).temp →
      (∀ j, 1 ≤ j → j < c.speed_matrix.length →
        (getP c.speed_matrix 0).temp < (getP c.speed_matrix j).temp) →
      c.speed_for_temp t = (getP c.speed_matrix 0).speed) ∧
    (∀ t, (getP c.speed_matrix (c.speed_matrix.length - 1)).temp ≤ t →
      c.speed_for_temp t =
        (getP c.speed_matrix (c.speed_matrix.length - 1)).speed) := by
  have hwf := (validate_ok_iff c.speed_matrix).mp hv
  have htadj : ∀ k, k + 1 < c.speed_matrix.length →
      (getP c.speed_matrix k).temp ≤ (getP c.speed_matrix (k + 1)).temp :=
    fun k hk => (hwf.2 k hk).2
  have htmono := getP_mono (fun p => p.temp) c.speed_matrix htadj
  have hlen : 0 < c.speed_matrix.length := List.length_pos.mpr hne
  refine ⟨?_, ?_, ?_⟩
  · intro t ht
    cases hr : rposition (fun p => decide (p.temp ≤ t)) c.speed_matrix with
    | none => rw [speed_for_temp_of_none c t hr, min_speed_eq_getP c hne]
    | some k =>
      obtain ⟨hk, hkt, _⟩ := bracket_facts c.speed_matrix t k hr
      have h0k : (getP c.speed_matrix 0).temp ≤ (getP c.speed_matrix k).temp :=
        htmono 0 k (Nat.zero_le _) hk
      linarith
  · intro t ht hsep
    cases hr : rposition (fun p => decide (p.temp ≤ t)) c.speed_matrix with
    | none => rw [speed_for_temp_of_none c t hr, min_speed_eq_getP c hne]
    | some k =>
      obtain ⟨hk, hkt, _⟩ := bracket_facts c.speed_matrix t k hr
      have hk0 : k = 0 := by
        by_contra h0
        have := hsep k (by omega) hk
        linarith
      subst hk0
      have htt : t = (getP c.speed_matrix 0).temp := le_antisymm ht hkt
      by_cases hl : 0 = c.speed_matrix.length - 1
      · rw [speed_for_temp_of_last c t 0 hr hl, max_speed_eq_getP c hne, ← hl]
      · rw [speed_for_temp_of_mid c t 0 hr hl, htt]
        unfold linear_map
        ring
  · intro t ht
    have hlast : c.speed_matrix.length - 1 < c.speed_matrix.length := by omega
    obtain ⟨k, hr, hk⟩ :=
      rposition_ge (fun p => decide (p.temp ≤ t)) ⟨0, 0⟩ c.speed_matrix
        (c.speed_matrix.length - 1) hlast (decide_eq_true ht)
    have hkl := (rposition_some (fun p => decide (p.temp ≤ t)) ⟨0, 0⟩
      c.speed_matrix k hr).1
    have hkeq : k = c.speed_matrix.length - 1 := by omega
    rw [speed_for_temp_of_last c t k hr hkeq, max_speed_eq_getP c hne]

/-- Witness for the amended C2 at the default curve: below-range and
above-range readings clamp to the first and last speeds. -/
theorem speed_for_temp_clamps_witness :
    Config.default.speed_for_temp 1 =
      (getP Config.default.speed_matrix 0).speed ∧
    Config.default.speed_for_temp 160 =
      (getP Config.default.speed_matrix
        (Config.default.speed_matrix.length - 1)).speed := by
  constructor
  · exact (speed_for_temp_clamps Config.default rfl
      (by simp [Config.default])).1 1 (by norm_num [Config.default, getP])
  · exact (speed_for_temp_clamps Config.default rfl
      (by simp [Config.default])).2.2 160 (by norm_num [Config.default, getP])

/-- C3: validation accepts a curve exactly when every speed lies in
`[0, 100]` and neither speed nor temperature decreases between consecutive
points; otherwise it fails on the first offending point in stored order
with the matching error and its identifying fields, regardless of every
later point; the previous value it reports is the last point before the
offender. -/
theorem validate_characterisation :
    (∀ l, validate l = Except.ok () ↔ wellFormed l) ∧
    (∀ pre p post e, validate pre = Except.ok () →
      pointError (lastSeen none pre) p pre.length = some e →
      validate (pre ++ p :: post) = Except.error e) ∧
    (∀ pre : List MatrixPoint, lastSeen none pre = pre.getLast?) := by
  refine ⟨validate_ok_iff,
    fun pre p post e hok he => validate_error_at pre p post e hok he,
    fun pre => ?_⟩
  rw [lastSeen_eq_getLast?]
  cases pre.getLast? <;> rfl

/-- Witness for C3: a clean one-point prefix followed by a decreasing
speed yields `UnsortedFanSpeed` with current value, previous value and
index, whatever follows. -/
theorem validate_characterisation_witness :
    validate [⟨4, 4⟩] = Except.ok () ∧
    pointError (lastSeen none [⟨4, 4⟩]) ⟨30, 2⟩ 1 =
      some (ConfigError.UnsortedFanSpeed 2 1 4) ∧
    validate [⟨4, 4⟩, ⟨30, 2⟩, ⟨0, 200⟩] =
      Except.error (ConfigError.UnsortedFanSpeed 2 1 4) ∧
    wellFormed Config.default.speed_matrix := by
  refine ⟨rfl, rfl, ?_, ?_⟩
  · exact validate_characterisation.2.1 [⟨4, 4⟩] ⟨30, 2⟩ [⟨0, 200⟩]
      (ConfigError.UnsortedFanSpeed 2 1 4) rfl rfl
  · exact (validate_characterisation.1 Config.default.speed_matrix).mp rfl

/-- C4 as stated is refuted by `plateauCurve`: its points 0 and 1 are
adjacent with equal temperature 50, yet evaluation at 50 returns 30 (the
speed of the last plateau point), not that pair's later speed 20. -/
theorem plateau_pair_speed_refuted :
    validate plateauCurve.speed_matrix = Except.ok () ∧
    (getP plateauCurve.speed_matrix 0).temp =
      (getP plateauCurve.speed_matrix 1).temp ∧
    (getP plateauCurve.speed_matrix 1).speed = 20 ∧
    plateauCurve.speed_for_temp 50 = 30 ∧ (30 : ℚ) ≠ 20 :=
  ⟨rfl, rfl, rfl, rfl, by norm_num⟩

/-- C4 amended: on a validated curve, for adjacent points of equal
temperature at which the plateau ends (the pair reaches the end of the
curve, or the following point is strictly hotter), evaluation at the
shared temperature returns the later point's speed; and the interpolation
branch is only ever entered with strictly increasing bracket temperatures,
so its division never has a zero denominator. -/
theorem plateau_eval_and_no_div_zero (c : Config)
    (hv : validate c.speed_matrix = Except.ok ()) :
    (∀ i, i + 1 < c.speed_matrix.length →
      (getP c.speed_matrix i).temp = (getP c.speed_matrix (i + 1)).temp →
      (i + 2 = c.speed_matrix.length ∨
        (i + 2 < c.speed_matrix.length ∧
          (getP c.speed_matrix i).temp < (getP c.speed_matrix (i + 2)).temp)) →
      c.speed_for_temp ((getP c.speed_matrix i).temp) =
        (getP c.speed_matrix (i + 1)).speed) ∧
    (∀ t idx,
      rposition (fun p => decide (p.temp ≤ t)) c.speed_matrix = some idx →
      idx + 1 < c.speed_matrix.length →
      (getP c.speed_matrix idx).temp < (getP c.speed_matrix (idx + 1)).temp) := by
  have hwf := (validate_ok_iff c.speed_matrix).mp hv
  have htadj : ∀ k, k + 1 < c.speed_matrix.length →
      (getP c.speed_matrix k).temp ≤ (getP c.speed_matrix (k + 1)).temp :=
    fun k hk => (hwf.2 k hk).2
  have htmono := getP_mono (fun p => p.temp) c.speed_matrix htadj
  constructor
  · intro i hi heq hcase
    rcases hcase with hend | ⟨hlt2, hgt⟩
    · have hne : c.speed_matrix ≠ [] := List.ne_nil_of_length_pos (by omega)
      have hl1 : i + 1 = c.speed_matrix.length - 1 := by omega
      have hple : (getP c.speed_matrix (c.speed_matrix.length - 1)).temp ≤
          (getP c.speed_matrix i).temp := by
        rw [← hl1, ← heq]
      obtain ⟨k, hr, hk⟩ :=
        rposition_ge (fun p => decide (p.temp ≤ (getP c.speed_matrix i).temp))
          ⟨0, 0⟩ c.speed_matrix (c.speed_matrix.length - 1) (by omega)
          (decide_eq_true hple)
      have hkl := (rposition_some
        (fun p => decide (p.temp ≤ (getP c.speed_matrix i).temp)) ⟨0, 0⟩
        c.speed_matrix k hr).1
      have hkeq : k = c.speed_matrix.length - 1 := by omega
      rw [speed_for_temp_of_last c _ k hr hkeq, max_speed_eq_getP c hne, ← hl1]
    · have hr : rposition
          (fun p => decide (p.temp ≤ (getP c.speed_matrix i).temp))
          c.speed_matrix = some (i + 1) :=
        rposition_temp_eq c.speed_matrix _ (i + 1) (by omega) (by rw [← heq])
          (fun j hij hj =>
            lt_of_lt_of_le hgt (htmono (i + 2) j (by omega) hj))
      have hnl : i + 1 ≠ c.speed_matrix.length - 1 := by omega
      rw [speed_for_temp_of_mid c _ (i + 1) hr hnl, ← heq]
      unfold linear_map
      ring
  · intro t idx hr hsucc
    obtain ⟨_, ht1, ht2⟩ := bracket_facts c.speed_matrix t idx hr
    exact lt_of_le_of_lt ht1 (ht2 hsucc)

/-- Witness for the amended C4 at `plateauCurve`'s second plateau pair,
which reaches the end of the curve. -/
theorem plateau_eval_witness :
    plateauCurve.speed_for_temp ((getP plateauCurve.speed_matrix 1).temp) =
      (getP plateauCurve.speed_matrix 2).speed :=
  (plateau_eval_and_no_div_zero plateauCurve rfl).1 1
    (by norm_num [plateauCurve]) rfl (Or.inl rfl)

/-- C5 as stated is refuted: with an empty curve every reading — here
1000 — is vacuously above every stored point, yet evaluation returns the
`0` fallback, never `100`. -/
theorem empty_curve_hundred_refuted :
    emptyCurve.speed_matrix = [] ∧
    emptyCurve.speed_for_temp 1000 = 0 ∧ (0 : ℚ) ≠ 100 :=
  ⟨rfl, rfl, by norm_num⟩

/-- C5 amended: with an empty curve, `speed_for_temp` never fails and
evaluates to the min-speed fallback `0` at every temperature; the `100`
fallback of `max_speed` is unreachable. -/
theorem empty_curve_eval (c : Config) (h : c.speed_matrix = []) :
    ∀ t, c.speed_for_temp t = 0 := by
  intro t
  unfold Config.speed_for_temp Config.min_speed
  rw [h]
  rfl

/-- Witness for the amended C5. -/
theorem empty_curve_eval_witness : emptyCurve.speed_for_temp 42 = 0 :=
  empty_curve_eval emptyCurve rfl 42

/-- C6: when the configuration file is missing, `load_config` builds the
default configuration, writes it to the path, and returns it successfully;
and the default curve passes every validation rule. -/
theorem load_config_bootstrap :
    loadConfig ReadOutcome.notFound true =
      (LoadResult.ok Config.default, some Config.default) ∧
    validate Config.default.speed_matrix = Except.ok () :=
  ⟨rfl, rfl⟩

/-- C7: `hw_mons` returns exactly the successfully opened devices that,
when filtering is on, pass both the vendor and the name predicate; with
`filter = false` every opened device is kept; a device that fails to open
is dropped alone, the rest survive (`filterMap` semantics). -/
theorem hw_mons_result (cards : List ℕ) (openF : ℕ → Option HwMon)
    (fil : Bool) :
    (hw_monsLog cards openF fil).1 =
      (cards.filterMap openF).filter
        (fun h => !fil || (h.is_amd && h.name_is_amd)) ∧
    (hw_monsLog cards openF false).1 = cards.filterMap openF := by
  refine ⟨hw_monsLog_fst openF fil cards, ?_⟩
  rw [hw_monsLog_fst openF false cards]
  simp

/-- C8 as stated is refuted: with filtering on, a device that opens but
fails the vendor predicate gets a vendor-check log entry only — no
name-check entry is ever produced for it. -/
theorem name_predicate_skipped_refuted :
    (hw_monsLog [0] (fun _ => some ⟨false, true⟩) true).2 =
      [LogEntry.opening 0, LogEntry.vendorCheck false] ∧
    LogEntry.nameCheck true ∉
      (hw_monsLog [0] (fun _ => some ⟨false, true⟩) true).2 ∧
    LogEntry.nameCheck false ∉
      (hw_monsLog [0] (fun _ => some ⟨false, true⟩) true).2 :=
  ⟨rfl, by decide, by decide⟩

/-- C8 amended: with filtering on, the vendor predicate is evaluated and
logged for every successfully opened device, but the name predicate is
evaluated and logged only for the devices that passed the vendor check:
the log is exactly the concatenation of per-device logs of that shape. -/
theorem hw_mons_log_shape (cards : List ℕ) (openF : ℕ → Option HwMon)
    (fil : Bool) :
    (hw_monsLog cards openF fil).2 =
      (cards.map (deviceLog openF fil)).flatten :=
  hw_monsLog_snd openF fil cards

/-- C9 as stated is refuted: on a file that reads but fails parsing,
`load_config` panics (`unwrap()`), terminating the process instead of
returning a value; likewise on a read failure other than not-found
(explicit `panic!()`). -/
theorem load_config_panic_refuted :
    (loadConfig (ReadOutcome.found none) true).1 = LoadResult.panicked ∧
    (loadConfig ReadOutcome.otherError true).1 = LoadResult.panicked ∧
    LoadResult.panicked.isStructured = false :=
  ⟨rfl, rfl, rfl⟩

/-- C9 amended: `load_config` hands a structured value back to the caller
in every case except exactly two, where it terminates the process: content
that is present but malformed, and a read failure other than not-found. -/
theorem load_config_panic_characterisation (read : ReadOutcome)
    (writeOk : Bool) :
    (loadConfig read writeOk).1 = LoadResult.panicked ↔
      read = ReadOutcome.found none ∨ read = ReadOutcome.otherError := by
  cases read with
  | found parsed =>
    cases parsed with
    | none => simp [loadConfig]
    | some c => simp [loadConfig, postValidate_ne_panicked c]
  | notFound =>
    by_cases hw : writeOk <;>
      simp [loadConfig, hw, postValidate_ne_panicked]
  | otherError => simp [loadConfig]

/-- C10: on a validated curve with strictly increasing temperatures,
`speed_for_temp` is monotone non-decreasing in the temperature reading. -/
theorem speed_for_temp_monotone (c : Config)
    (hv : validate c.speed_matrix = Except.ok ())
    (hstrict : ∀ i, i + 1 < c.speed_matrix.length →
      (getP c.speed_matrix i).temp < (getP c.speed_matrix (i + 1)).temp)
    (t1 t2 : ℚ) (ht : t1 ≤ t2) :
    c.speed_for_temp t1 ≤ c.speed_for_temp t2 := by
  have hwf := (validate_ok_iff c.speed_matrix).mp hv
  have hsmono := getP_mono (fun p => p.speed) c.speed_matrix
    (fun i hi => (hwf.2 i hi).1)
  cases hr1 : rposition (fun p => decide (p.temp ≤ t1)) c.speed_matrix with
  | none =>
    rw [speed_for_temp_of_none c t1 hr1]
    cases hr2 : rposition (fun p => decide (p.temp ≤ t2)) c.speed_matrix with
    | none => rw [speed_for_temp_of_none c t2 hr2]
    | some j =>
      have hjlen := (rposition_some (fun p => decide (p.temp ≤ t2)) ⟨0, 0⟩
        c.speed_matrix j hr2).1
      have hne : c.speed_matrix ≠ [] := List.ne_nil_of_length_pos (by omega)
      rw [min_speed_eq_getP c hne]
      exact le_trans (hsmono 0 j (Nat.zero_le _) hjlen)
        (speed_for_temp_lb c t2 j hwf hstrict hr2)
  | some i =>
    obtain ⟨hilen, hit, _⟩ := bracket_facts c.speed_matrix t1 i hr1
    obtain ⟨j, hr2, hij⟩ := rposition_ge (fun p => decide (p.temp ≤ t2))
      ⟨0, 0⟩ c.speed_matrix i hilen (decide_eq_true (le_trans hit ht))
    have hjlen := (rposition_some (fun p => decide (p.temp ≤ t2)) ⟨0, 0⟩
      c.speed_matrix j hr2).1
    rcases Nat.eq_or_lt_of_le hij with heq | hlt
    · subst heq
      by_cases hl : i = c.speed_matrix.length - 1
      · rw [speed_for_temp_of_last c t1 i hr1 hl,
          speed_for_temp_of_last c t2 i hr2 hl]
      · have hsucc : i + 1 < c.speed_matrix.length := by omega
        rw [speed_for_temp_of_mid c t1 i hr1 hl,
          speed_for_temp_of_mid c t2 i hr2 hl]
        exact linear_map_mono t1 t2 _ _ _ _ (hstrict i hsucc)
          ((hwf.2 i hsucc).1) ht
    · have hisucc : i + 1 < c.speed_matrix.length := by omega
      exact le_trans (speed_for_temp_ub c t1 i hwf hstrict hr1 hisucc)
        (le_trans (hsmono (i + 1) j (by omega) hjlen)
          (speed_for_temp_lb c t2 j hwf hstrict hr2))

/-- Witness for C10 at the default curve. -/
theorem speed_for_temp_monotone_witness :
    Config.default.speed_for_temp 30 ≤ Config.default.speed_for_temp 50 :=
  speed_for_temp_monotone Config.default rfl
    (by
      intro i hi
      have h8 : i + 1 < 8 := by simpa [Config.default] using hi
      have h7 : i < 7 := by omega
      interval_cases i <;> norm_num [Config.default, getP])
    30 50 (by norm_num)

end Amdgpud
